import Mathlib

/-!
Verification of the DependencyExtractor repository: a shallow embedding of
the dependency-resolution core (path resolution, Python import parsing,
C# type indexing, the breadth-first traversal engine, external-dependency
collection and manifest generation) together with theorems settling the
specification claims.

Paths are modelled as lists of components (the pathlib parts view), already
resolved to canonical absolute form, so pathlib resolve calls in the source
are the identity here.  The on-disk filesystem is modelled as finite lists
of existing file paths and directory paths.
-/

/-- A filesystem path as its list of components (pathlib parts). -/
abbrev FsPath := List String

/-- Last component of a path (pathlib name); empty for the empty path. -/
def lastComponent (p : FsPath) : String := p.getLastD ""

/-- Split a character list at every occurrence of the separator character.
Mirrors str.split with a one-character separator (never returns an empty
list; adjacent separators produce empty segments). -/
def splitChar (sep : Char) : List Char → List (List Char)
  | [] => [[]]
  | c :: rest =>
    let r := splitChar sep rest
    if c == sep then [] :: r
    else (c :: r.headD []) :: r.tailD []

/-- Segments of a dotted module name: models name.split on a dot, as used by
resolve of Python modules (name.replace of dot by slash yields exactly these
components) and by the root-segment extraction. -/
def dotSegments (s : String) : List String :=
  (splitChar '.' s.toList).map (fun l => String.mk l)

/-- First segment of a dotted module name: models name.split(dot)[0]. -/
def rootSegment (s : String) : String := (dotSegments s).headD ""

/-- Lowercase a string character-wise: models str.lower for the ASCII
extension comparisons in the source. -/
def lowerStr (s : String) : String := String.mk (s.toList.map Char.toLower)

/-- The pathlib suffix of a file name: the substring from the last dot,
provided that dot is neither the first nor the last character of the name
(dotfiles and names with a trailing dot have an empty suffix). -/
def fileSuffix (name : String) : String :=
  let cs := name.toList
  let n := cs.length
  match cs.reverse.findIdx? (fun c => c == '.') with
  | none => ""
  | some j =>
    let i := n - 1 - j
    if 1 ≤ i ∧ i + 1 < n then String.mk (cs.drop i) else ""

/-- Lowercased pathlib suffix of the last component of a path: models
path.suffix.lower() as used for the language dispatch in the source. -/
def suffixLower (p : FsPath) : String := lowerStr (fileSuffix (lastComponent p))

/-- Wildcard match of an fnmatch-style pattern against a name, both as
character lists.  A star matches any (possibly empty) run of characters, a
question mark matches exactly one character, and any other pattern
character matches itself.  This is the semantics of the fnmatch matching
used by pathlib match for each path component (character classes are not
used by this repository and are not modelled). -/
def fnmatchChars : List Char → List Char → Bool
  | [], s => s.isEmpty
  | '*' :: ps, s => s.tails.any (fun t => fnmatchChars ps t)
  | '?' :: ps, s =>
    match s with
    | [] => false
    | _ :: cs => fnmatchChars ps cs
  | p :: ps, s =>
    match s with
    | [] => false
    | c :: cs => p == c && fnmatchChars ps cs

/-- fnmatch on strings. -/
def fnmatchStr (pat s : String) : Bool := fnmatchChars pat.toList s.toList

/-- Models pathlib PurePath.match with a relative pattern: the pattern is
split on slashes and matched right-anchored, component-wise by fnmatch,
against the trailing components of the path. -/
def pathMatch (p : FsPath) (pattern : String) : Bool :=
  let patParts := (splitChar '/' pattern.toList).map (fun l => String.mk l)
  decide (patParts.length ≤ p.length) &&
    ((p.drop (p.length - patParts.length)).zip patParts).all
      (fun pr => fnmatchStr pr.2 pr.1)

/-- Models DependencyExtractor._is_ignored: a path is ignored when any of
its components is one of the ignore-directory names, or when it matches any
of the ignore-file glob patterns. -/
def isIgnored (ignoreDirs ignoreFiles : List String) (p : FsPath) : Bool :=
  p.any (fun part => ignoreDirs.contains part) ||
    ignoreFiles.any (fun pat => pathMatch p pat)

/-- The filesystem: the finite lists of existing (canonical) file paths and
directory paths visible to the extractor. -/
structure FS where
  files : List FsPath
  dirs : List FsPath

/-- Models Path.is_file. -/
def FS.isFile (fs : FS) (p : FsPath) : Bool := fs.files.contains p

/-- Models Path.is_dir. -/
def FS.isDir (fs : FS) (p : FsPath) : Bool := fs.dirs.contains p

/-- Models dir.rglob with the star-dot-py pattern: every existing file
strictly beneath the directory whose name ends in the .py extension. -/
def rglobPy (fs : FS) (dir : FsPath) : List FsPath :=
  fs.files.filter (fun f =>
    decide (dir <+: f) && decide (dir.length < f.length) &&
      fnmatchStr "*.py" (lastComponent f))

/-- Components of the relative path for a dotted module name with the .py
extension appended to the last segment: models base_dir / (path_str + .py). -/
def moduleFileComps (name : String) : List String :=
  let segs := dotSegments name
  segs.dropLast ++ [(segs.getLastD "") ++ ".py"]

/-- Models parsers.resolve_python_module: try each project directory in
order; return the module file if it exists, else the package marker file
(dunder-init) when the relative path is a directory containing one; none
when no root matches. -/
def resolve_python_module (fs : FS) (name : String) (project_dirs : List FsPath) :
    Option FsPath :=
  match project_dirs with
  | [] => none
  | base :: rest =>
    let potentialFile := base ++ moduleFileComps name
    if fs.isFile potentialFile then some potentialFile
    else
      let potentialDir := base ++ dotSegments name
      if fs.isDir potentialDir && fs.isFile (potentialDir ++ ["__init__.py"]) then
        some (potentialDir ++ ["__init__.py"])
      else resolve_python_module fs name rest

/-- Models the legacy DependencyExtractor._resolve_python_module_path
(single project root): return the singleton module file if it exists; else,
when the relative path holds a package marker file, the set of all .py
files recursively beneath that directory; none otherwise. -/
def resolve_python_module_path_legacy (fs : FS) (name : String)
    (project_root : FsPath) : Option (List FsPath) :=
  let potentialFile := project_root ++ moduleFileComps name
  if fs.isFile potentialFile then some [potentialFile]
  else
    let potentialDir := project_root ++ dotSegments name
    if fs.isFile (potentialDir ++ ["__init__.py"]) then
      some (rglobPy fs potentialDir)
    else none

/-- An import statement as produced by the Python ast module, restricted to
the two node kinds the source inspects: a plain import with its alias
names, and a from-import with its optional module and its relative level
(level zero means absolute). -/
inductive PyStmt where
  | imp (names : List String)
  | impFrom (module : Option String) (level : Nat)
deriving DecidableEq

/-- Models the modules_to_check accumulation of
parsers.parse_python_dependencies for one statement: a plain import
contributes every alias name; a from-import contributes its module
whenever that module is a truthy (non-empty) string, with no test of the
relative level. -/
def modulesOfStmt : PyStmt → List String
  | .imp names => names
  | .impFrom (some m) _ => if m.isEmpty then [] else [m]
  | .impFrom none _ => []

/-- Models the per-node module-name selection of the legacy
DependencyExtractor._parse_python_dependencies: a plain import keeps only
the last alias of the statement (the loop overwrites the variable), and a
from-import is used only at relative level zero; a falsy (empty or absent)
name is skipped. -/
def legacyModuleOfStmt : PyStmt → Option String
  | .imp names =>
    match names.getLast? with
    | some m => if m.isEmpty then none else some m
    | none => none
  | .impFrom (some m) 0 => if m.isEmpty then none else some m
  | .impFrom _ _ => none

/-- Insert into a list acting as a set: models set.add. -/
def insertNew [DecidableEq α] (l : List α) (x : α) : List α :=
  if x ∈ l then l else l ++ [x]

/-- Union into a list acting as a set: models set.update. -/
def listUnion [DecidableEq α] (l e : List α) : List α := e.foldl insertNew l

/-- One module-name step of parsers.parse_python_dependencies: a resolved
non-ignored path joins the local set; an unresolved name whose root segment
is not a standard-library module name contributes that root segment to the
external set. -/
def pyDepStep (fs : FS) (project_dirs : List FsPath)
    (ignoreDirs ignoreFiles : List String) (stdlib : List String)
    (acc : List FsPath × List String) (m : String) : List FsPath × List String :=
  match resolve_python_module fs m project_dirs with
  | some p =>
    if isIgnored ignoreDirs ignoreFiles p then acc else (insertNew acc.1 p, acc.2)
  | none =>
    if rootSegment m ∈ stdlib then acc else (acc.1, insertNew acc.2 (rootSegment m))

/-- Models parsers.parse_python_dependencies.  The input is the parsed
syntax tree (the list of import statements the ast walk visits); the value
none models a SyntaxError from ast.parse, on which both result sets are
empty.  The standard-library name set is a parameter, as the source takes
it from the running interpreter. -/
def parse_python_dependencies (fs : FS) (project_dirs : List FsPath)
    (ignoreDirs ignoreFiles : List String) (stdlib : List String)
    (tree : Option (List PyStmt)) : List FsPath × List String :=
  match tree with
  | none => ([], [])
  | some stmts =>
    stmts.foldl
      (fun acc st =>
        (modulesOfStmt st).foldl
          (pyDepStep fs project_dirs ignoreDirs ignoreFiles stdlib) acc)
      ([], [])

/-- One insertion into the C# type index: models the check-then-set merge
step of DependencyExtractor._build_csharp_type_index, where a type name
already present in the mapping is never overwritten. -/
def insertTypeEntry (m : List (String × FsPath)) (e : String × FsPath) :
    List (String × FsPath) :=
  if (m.lookup e.1).isSome then m else m ++ [e]

/-- Models the sequential merge of the per-file worker results into the
shared C# type index: the lists arrive in completion order and each
(name, path) pair is inserted with first-writer-wins semantics. -/
def mergeTypeIndex (results : List (List (String × FsPath))) :
    List (String × FsPath) :=
  results.foldl (fun m fr => fr.foldl insertTypeEntry m) []

/-- Models parsers.parse_csharp_dependencies.  The candidate list stands
for the successive matches of the permissive type-position pattern over the
file content (the regular-expression scan itself is kept abstract); each
candidate found in the type index and not ignored joins the dependency
set. -/
def parse_csharp_dependencies (candidates : List String)
    (type_map : List (String × FsPath)) (ignoreDirs ignoreFiles : List String) :
    List FsPath :=
  candidates.foldl
    (fun acc tn =>
      match type_map.lookup tn with
      | none => acc
      | some fp =>
        if isIgnored ignoreDirs ignoreFiles fp then acc else insertNew acc fp)
    []

/-- Models the is_csharp_project flag computed in the extractor
constructor: true exactly when some entry file has the .cs suffix
(lowercased). -/
def isCsharpProject (entries : List FsPath) : Bool :=
  entries.any (fun p => suffixLower p == ".cs")

/-- Models the gating of the type index in DependencyExtractor.run: the
index is built (merged from the worker results) only when the project was
recognized as a C# project; otherwise the mapping stays empty. -/
def typeIndexOfRun (entries : List FsPath)
    (results : List (List (String × FsPath))) : List (String × FsPath) :=
  if isCsharpProject entries then mergeTypeIndex results else []

/-- Loop of DependencyExtractor._collect_external_csharp_dependencies over
the discovered project files: an ignored file is skipped; reading a file
either fails (modelled as none, the uncaught exception that aborts the
run) or yields the list of package Include/Version pairs matched by the
PackageReference pattern, each recorded as name==version in the external
set. -/
def collectCsprojLoop (ignoreDirs ignoreFiles : List String)
    (readPackages : FsPath → Option (List (String × String))) :
    List FsPath → List String → Except Unit (List String)
  | [], acc => .ok acc
  | f :: fsRest, acc =>
    if isIgnored ignoreDirs ignoreFiles f then
      collectCsprojLoop ignoreDirs ignoreFiles readPackages fsRest acc
    else
      match readPackages f with
      | none => .error ()
      | some ps =>
        collectCsprojLoop ignoreDirs ignoreFiles readPackages fsRest
          (ps.foldl (fun a pv => insertNew a (pv.1 ++ "==" ++ pv.2)) acc)

/-- Models DependencyExtractor._collect_external_csharp_dependencies: a
no-op for non-C# projects, otherwise the scan over every csproj file under
the project directories.  An error value models the exception escaping the
method when a csproj file cannot be read. -/
def collect_external_csharp_dependencies (isCsProject : Bool)
    (ignoreDirs ignoreFiles : List String) (csprojFiles : List FsPath)
    (readPackages : FsPath → Option (List (String × String))) :
    Except Unit (List String) :=
  if !isCsProject then .ok []
  else collectCsprojLoop ignoreDirs ignoreFiles readPackages csprojFiles []

/-- Lexicographic sort of identifier strings: models the call to sorted on
an external-dependency set (any correct sort produces the same list, since
the string order is total and antisymmetric). -/
def sortedStrings (l : List String) : List String :=
  l.insertionSort (fun a b => a ≤ b)

/-- The manifest files written by both create_zip_archive and
copy_files_to_dir (their manifest logic is identical): a requirements.txt
with the sorted Python identifiers when that set is non-empty, and a
csharp_packages.txt with the sorted C# identifiers when that set is
non-empty, each newline-joined. -/
def manifestFiles (pyDeps csDeps : List String) : List (String × String) :=
  (if pyDeps.isEmpty then []
   else [("requirements.txt", String.intercalate "\n" (sortedStrings pyDeps))]) ++
  (if csDeps.isEmpty then []
   else [("csharp_packages.txt", String.intercalate "\n" (sortedStrings csDeps))])

/-- The inputs the traversal engine consumes: the ignore rules, the
direct-dependencies-only flag, and the per-file analysis dispatch.  For a
path, the dispatch yields none when reading or parsing raises (the caught
exception), and otherwise the pair of discovered local dependency paths
(in the iteration order of the discovered set) and discovered external
Python identifiers. -/
structure TravEnv where
  ignoreDirs : List String
  ignoreFiles : List String
  noRecursion : Bool
  parse : FsPath → Option (List FsPath × List String)

/-- Ignore test of the engine environment. -/
def TravEnv.ignores (env : TravEnv) (p : FsPath) : Bool :=
  isIgnored env.ignoreDirs env.ignoreFiles p

/-- The mutable state of DependencyExtractor._collect_local_dependencies.
The frontier models the files_to_process deque of (path, depth) pairs,
processed the processed_files set, toCopy the files_to_copy set and extPy
the external_python_deps set.  Two instrumentation fields record events of
the loop: loopEnqueued lists every path appended to the frontier by
dependency discovery, and parsedLog lists every (path, depth) for which the
read-and-parse block was entered. -/
structure TravState where
  frontier : List (FsPath × Nat)
  processed : List FsPath
  toCopy : List FsPath
  extPy : List String
  loopEnqueued : List FsPath
  parsedLog : List (FsPath × Nat)
deriving DecidableEq

/-- The paths currently on a frontier. -/
def pathsOf (fr : List (FsPath × Nat)) : List FsPath := fr.map Prod.fst

/-- Models the discovery loop over new_deps: a dependency is appended to
the frontier at depth + 1 unless it is already processed or already
pending on the (live) frontier; the second accumulator component logs the
appended paths. -/
def enqueueDeps (processed : List FsPath) (depth : Nat) (deps : List FsPath)
    (acc : List (FsPath × Nat) × List FsPath) :
    List (FsPath × Nat) × List FsPath :=
  deps.foldl
    (fun a d =>
      if d ∈ processed ∨ d ∈ pathsOf a.1 then a
      else (a.1 ++ [(d, depth + 1)], a.2 ++ [d]))
    acc

/-- The body of one iteration of the traversal loop, applied after the
head (cur, depth) has been popped (st.frontier is already the remaining
deque): skip when already processed or ignored; otherwise mark processed
and copy-eligible, stop before parsing when depth-limiting applies, and
otherwise parse, record externals and enqueue the discovered
dependencies.  A parse value of none is the caught per-file exception:
the state keeps the file in the copy set and gains nothing else. -/
def popStep (env : TravEnv) (cur : FsPath) (depth : Nat) (st : TravState) :
    TravState :=
  if cur ∈ st.processed ∨ env.ignores cur then st
  else
    let st1 := { st with processed := cur :: st.processed,
                         toCopy := cur :: st.toCopy }
    if env.noRecursion ∧ 1 ≤ depth then st1
    else
      let st2 := { st1 with parsedLog := (cur, depth) :: st1.parsedLog }
      match env.parse cur with
      | none => st2
      | some (deps, exts) =>
        let fl := enqueueDeps st2.processed depth deps
          (st2.frontier, st2.loopEnqueued)
        { st2 with frontier := fl.1, loopEnqueued := fl.2,
                   extPy := listUnion st2.extPy exts }

/-- The traversal loop of DependencyExtractor._collect_local_dependencies,
run for a given number of iterations (the loop itself runs until the
frontier is empty; a state with an empty frontier is a fixed point). -/
def travRun (env : TravEnv) : Nat → TravState → TravState
  | 0, st => st
  | fuel + 1, st =>
    match st.frontier with
    | [] => st
    | (cur, depth) :: rest =>
      travRun env fuel (popStep env cur depth { st with frontier := rest })

/-- The initial traversal state: the frontier is seeded with every entry
file at depth zero, in order and without deduplication, and every other
component is empty. -/
def initState (entries : List FsPath) : TravState :=
  { frontier := entries.map (fun p => (p, 0)), processed := [], toCopy := [],
    extPy := [], loopEnqueued := [], parsedLog := [] }

/-- The local dependencies the dispatch discovers for a file (empty when
reading or parsing fails). -/
def depsOf (env : TravEnv) (p : FsPath) : List FsPath :=
  match env.parse p with
  | some r => r.1
  | none => []

/-- Well-formedness of the dispatch, as guaranteed by the two language
parsers in the source: every discovered local dependency has already
passed the ignore filter (both parse_python_dependencies and
parse_csharp_dependencies drop ignored paths before returning them). -/
def ParseWF (env : TravEnv) : Prop :=
  ∀ p deps exts, env.parse p = some (deps, exts) →
    ∀ d ∈ deps, env.ignores d = false

/-- All enqueue events of a traversal from the given entries: the initial
seeding of the frontier (one event per entry-list element) followed by
the discovery appends logged in the state. -/
def totalEnqueued (entries : List FsPath) (st : TravState) : List FsPath :=
  entries ++ st.loopEnqueued

/-- The per-file content view the dispatch needs: the parsed Python syntax
tree (none models a SyntaxError) and the matches of the C# type-position
pattern over the text. -/
structure FileContent where
  pyAst : Option (List PyStmt)
  csCandidates : List String

/-- Models the language dispatch inside the traversal loop (read_text
followed by the extension test): a failed read maps to none; a .py file is
analysed by the Python parser, a .cs file by the C# parser against the
type index (contributing no Python externals), and any other extension
contributes nothing. -/
def dispatchParse (fs : FS) (project_dirs : List FsPath)
    (ignoreDirs ignoreFiles : List String) (stdlib : List String)
    (type_map : List (String × FsPath)) (readFile : FsPath → Option FileContent)
    (p : FsPath) : Option (List FsPath × List String) :=
  match readFile p with
  | none => none
  | some c =>
    if suffixLower p == ".py" then
      some (parse_python_dependencies fs project_dirs ignoreDirs ignoreFiles
        stdlib c.pyAst)
    else if suffixLower p == ".cs" then
      some (parse_csharp_dependencies c.csCandidates type_map ignoreDirs
        ignoreFiles, [])
    else some ([], [])

/-- Folding preserves any invariant preserved by each step. -/
theorem foldl_preserve {α β : Type} {P : β → Prop} {f : β → α → β}
    (hf : ∀ a x, P a → P (f a x)) :
    ∀ (l : List α) (a : β), P a → P (l.foldl f a)
  | [], _, h => h
  | x :: xs, a, h => foldl_preserve hf xs (f a x) (hf a x h)

/-- Membership after a set-style insertion. -/
theorem mem_insertNew [DecidableEq α] {l : List α} {a x : α} :
    x ∈ insertNew l a ↔ x ∈ l ∨ x = a := by
  unfold insertNew
  split
  · constructor
    · exact fun h => Or.inl h
    · rintro (h | rfl)
      · exact h
      · assumption
  · simp

/-- One Python dependency step keeps every recorded local path
ignore-free. -/
theorem pyDepStep_locals_not_ignored (fs : FS) (dirs : List FsPath)
    (iD iF sl : List String) :
    ∀ (acc : List FsPath × List String) (m : String),
      (∀ p ∈ acc.1, isIgnored iD iF p = false) →
      ∀ p ∈ (pyDepStep fs dirs iD iF sl acc m).1, isIgnored iD iF p = false := by
  intro acc m h p hp
  unfold pyDepStep at hp
  split at hp
  case h_1 q hq =>
    split at hp
    · exact h p hp
    · rcases mem_insertNew.1 hp with h1 | rfl
      · exact h p h1
      · simp_all
  case h_2 =>
    split at hp <;> exact h p hp

/-- Every local dependency the Python parser returns has passed the ignore
filter. -/
theorem parse_python_locals_not_ignored (fs : FS) (dirs : List FsPath)
    (iD iF sl : List String) (tree : Option (List PyStmt)) :
    ∀ p ∈ (parse_python_dependencies fs dirs iD iF sl tree).1,
      isIgnored iD iF p = false := by
  unfold parse_python_dependencies
  match tree with
  | none => simp
  | some stmts =>
    have h0 : ∀ p ∈ (([], []) : List FsPath × List String).1,
        isIgnored iD iF p = false := by
      intro p hp
      exact absurd hp (List.not_mem_nil p)
    exact foldl_preserve
      (P := fun acc => ∀ p ∈ acc.1, isIgnored iD iF p = false)
      (fun acc st h =>
        foldl_preserve (pyDepStep_locals_not_ignored fs dirs iD iF sl)
          (modulesOfStmt st) acc h)
      stmts ([], []) h0

/-- Every local dependency the C# parser returns has passed the ignore
filter. -/
theorem parse_csharp_locals_not_ignored (cands : List String)
    (tm : List (String × FsPath)) (iD iF : List String) :
    ∀ p ∈ parse_csharp_dependencies cands tm iD iF,
      isIgnored iD iF p = false := by
  unfold parse_csharp_dependencies
  refine foldl_preserve
    (P := fun acc => ∀ p ∈ acc, isIgnored iD iF p = false) ?_ cands []
    (fun p hp => absurd hp (List.not_mem_nil p))
  intro acc tn h p hp
  split at hp
  · exact h p hp
  · split at hp
    · exact h p hp
    · rcases mem_insertNew.1 hp with h1 | rfl
      · exact h p h1
      · simp_all

/-- The language dispatch of the traversal loop is well-formed: discovered
local dependencies are never ignored, exactly because both language
parsers filter them. -/
theorem dispatchParse_wf (fs : FS) (dirs : List FsPath)
    (iD iF sl : List String) (tm : List (String × FsPath))
    (readFile : FsPath → Option FileContent) (noRec : Bool) :
    ParseWF ⟨iD, iF, noRec, dispatchParse fs dirs iD iF sl tm readFile⟩ := by
  intro p deps exts h d hd
  replace h : dispatchParse fs dirs iD iF sl tm readFile p = some (deps, exts) := h
  show isIgnored iD iF d = false
  unfold dispatchParse at h
  rcases hr : readFile p with _ | c
  · rw [hr] at h; cases h
  · rw [hr] at h
    replace h :
        (if (suffixLower p == ".py") = true then
          some (parse_python_dependencies fs dirs iD iF sl c.pyAst)
        else if (suffixLower p == ".cs") = true then
          some (parse_csharp_dependencies c.csCandidates tm iD iF, [])
        else some (([] : List FsPath), ([] : List String))) = some (deps, exts) := h
    by_cases h1 : (suffixLower p == ".py") = true
    · rw [if_pos h1] at h
      have h2 := Option.some.inj h
      have h3 : (parse_python_dependencies fs dirs iD iF sl c.pyAst).1 = deps := by
        rw [h2]
      refine parse_python_locals_not_ignored fs dirs iD iF sl c.pyAst d ?_
      rw [h3]; exact hd
    · rw [if_neg h1] at h
      by_cases h4 : (suffixLower p == ".cs") = true
      · rw [if_pos h4] at h
        have h2 := Option.some.inj h
        have h3 : parse_csharp_dependencies c.csCandidates tm iD iF = deps := by
          have := congrArg Prod.fst h2
          simpa using this
        refine parse_csharp_locals_not_ignored c.csCandidates tm iD iF d ?_
        rw [h3]; exact hd
      · rw [if_neg h4] at h
        have h2 := Option.some.inj h
        have h3 : ([] : List FsPath) = deps := by
          have := congrArg Prod.fst h2
          simpa using this
        rw [← h3] at hd
        simp at hd

/-- A path is on a frontier exactly when some pair carries it. -/
theorem mem_pathsOf {fr : List (FsPath × Nat)} {p : FsPath} :
    p ∈ pathsOf fr ↔ ∃ k, (p, k) ∈ fr := by
  unfold pathsOf
  constructor
  · intro h
    rcases List.mem_map.1 h with ⟨⟨q, k⟩, hq, rfl⟩
    exact ⟨k, hq⟩
  · rintro ⟨k, hk⟩
    exact List.mem_map.2 ⟨(p, k), hk, rfl⟩

/-- The enqueue loop only appends to the frontier. -/
theorem enq_fst_mono (proc : List FsPath) (depth : Nat) :
    ∀ (deps : List FsPath) (acc : List (FsPath × Nat) × List FsPath)
      (pd : FsPath × Nat), pd ∈ acc.1 →
      pd ∈ (enqueueDeps proc depth deps acc).1 := by
  intro deps
  induction deps with
  | nil => intro acc pd h; exact h
  | cons d ds ih =>
    intro acc pd h
    by_cases hg : d ∈ proc ∨ d ∈ pathsOf acc.1
    · have heq : enqueueDeps proc depth (d :: ds) acc = enqueueDeps proc depth ds acc := by
        simp only [enqueueDeps, List.foldl_cons, if_pos hg]
      rw [heq]
      exact ih acc pd h
    · have heq : enqueueDeps proc depth (d :: ds) acc =
          enqueueDeps proc depth ds (acc.1 ++ [(d, depth + 1)], acc.2 ++ [d]) := by
        simp only [enqueueDeps, List.foldl_cons, if_neg hg]
      rw [heq]
      refine ih (acc.1 ++ [(d, depth + 1)], acc.2 ++ [d]) pd ?_
      exact List.mem_append_left _ h

/-- Every pair on the frontier after the enqueue loop was either already
there or is a freshly appended dependency at depth + 1 that was not yet
processed and not yet pending. -/
theorem enq_mem_fst (proc : List FsPath) (depth : Nat) :
    ∀ (deps : List FsPath) (acc : List (FsPath × Nat) × List FsPath)
      (pd : FsPath × Nat), pd ∈ (enqueueDeps proc depth deps acc).1 →
      pd ∈ acc.1 ∨ (pd.2 = depth + 1 ∧ pd.1 ∈ deps ∧ pd.1 ∉ proc ∧
        pd.1 ∉ pathsOf acc.1) := by
  intro deps
  induction deps with
  | nil => intro acc pd h; exact Or.inl h
  | cons d ds ih =>
    intro acc pd h
    by_cases hg : d ∈ proc ∨ d ∈ pathsOf acc.1
    · have he : enqueueDeps proc depth (d :: ds) acc = enqueueDeps proc depth ds acc := by
        simp only [enqueueDeps, List.foldl_cons, if_pos hg]
      rw [he] at h
      rcases ih acc pd h with h1 | ⟨h2, h3, h4, h5⟩
      · exact Or.inl h1
      · exact Or.inr ⟨h2, List.mem_cons_of_mem d h3, h4, h5⟩
    · have he : enqueueDeps proc depth (d :: ds) acc =
          enqueueDeps proc depth ds (acc.1 ++ [(d, depth + 1)], acc.2 ++ [d]) := by
        simp only [enqueueDeps, List.foldl_cons, if_neg hg]
      rw [he] at h
      push_neg at hg
      rcases ih _ pd h with h1 | ⟨h2, h3, h4, h5⟩
      · rcases List.mem_append.1 h1 with h6 | h6
        · exact Or.inl h6
        · have h7 : pd = (d, depth + 1) := by simpa using h6
          subst h7
          exact Or.inr ⟨rfl, List.mem_cons_self d ds, hg.1, hg.2⟩
      · have h5' : pd.1 ∉ pathsOf acc.1 := by
          intro hc
          exact h5 (by
            rcases mem_pathsOf.1 hc with ⟨k, hk⟩
            exact mem_pathsOf.2 ⟨k, List.mem_append_left _ hk⟩)
        exact Or.inr ⟨h2, List.mem_cons_of_mem d h3, h4, h5'⟩

/-- After the enqueue loop, every discovered dependency is either already
processed or pending on the frontier. -/
theorem enq_deps_cov (proc : List FsPath) (depth : Nat) :
    ∀ (deps : List FsPath) (acc : List (FsPath × Nat) × List FsPath),
      ∀ d ∈ deps, d ∈ proc ∨ d ∈ pathsOf (enqueueDeps proc depth deps acc).1 := by
  intro deps
  induction deps with
  | nil => intro acc d h; exact absurd h (List.not_mem_nil d)
  | cons d ds ih =>
    intro acc e he
    by_cases hg : d ∈ proc ∨ d ∈ pathsOf acc.1
    · have heq : enqueueDeps proc depth (d :: ds) acc = enqueueDeps proc depth ds acc := by
        simp only [enqueueDeps, List.foldl_cons, if_pos hg]
      rw [heq]
      rcases List.mem_cons.1 he with rfl | h1
      · rcases hg with h2 | h2
        · exact Or.inl h2
        · rcases mem_pathsOf.1 h2 with ⟨k, hk⟩
          exact Or.inr (mem_pathsOf.2 ⟨k, enq_fst_mono proc depth ds acc (e, k) hk⟩)
      · exact ih acc e h1
    · have heq : enqueueDeps proc depth (d :: ds) acc =
          enqueueDeps proc depth ds (acc.1 ++ [(d, depth + 1)], acc.2 ++ [d]) := by
        simp only [enqueueDeps, List.foldl_cons, if_neg hg]
      rw [heq]
      rcases List.mem_cons.1 he with rfl | h1
      · refine Or.inr (mem_pathsOf.2 ⟨depth + 1, ?_⟩)
        refine enq_fst_mono proc depth ds _ (e, depth + 1) ?_
        exact List.mem_append_right _ (by simp)
      · exact ih _ e h1

/-- Members of the enqueue log after the loop. -/
theorem enq_snd_mem (proc : List FsPath) (depth : Nat) :
    ∀ (deps : List FsPath) (acc : List (FsPath × Nat) × List FsPath)
      (p : FsPath), p ∈ (enqueueDeps proc depth deps acc).2 →
      p ∈ acc.2 ∨ p ∈ deps := by
  intro deps
  induction deps with
  | nil => intro acc p h; exact Or.inl h
  | cons d ds ih =>
    intro acc p h
    by_cases hg : d ∈ proc ∨ d ∈ pathsOf acc.1
    · have heq : enqueueDeps proc depth (d :: ds) acc = enqueueDeps proc depth ds acc := by
        simp only [enqueueDeps, List.foldl_cons, if_pos hg]
      rw [heq] at h
      rcases ih acc p h with h1 | h1
      · exact Or.inl h1
      · exact Or.inr (List.mem_cons_of_mem d h1)
    · have heq : enqueueDeps proc depth (d :: ds) acc =
          enqueueDeps proc depth ds (acc.1 ++ [(d, depth + 1)], acc.2 ++ [d]) := by
        simp only [enqueueDeps, List.foldl_cons, if_neg hg]
      rw [heq] at h
      rcases ih _ p h with h1 | h1
      · rcases List.mem_append.1 h1 with h2 | h2
        · exact Or.inl h2
        · exact Or.inr (List.mem_cons.2 (Or.inl (by simpa using h2)))
      · exact Or.inr (List.mem_cons_of_mem d h1)

/-- The enqueue loop preserves the log invariant: the log stays free of
duplicates, and each logged path is processed or pending. -/
theorem enq_le_inv (proc : List FsPath) (depth : Nat) :
    ∀ (deps : List FsPath) (acc : List (FsPath × Nat) × List FsPath),
      acc.2.Nodup → (∀ p ∈ acc.2, p ∈ proc ∨ p ∈ pathsOf acc.1) →
      (enqueueDeps proc depth deps acc).2.Nodup ∧
      (∀ p ∈ (enqueueDeps proc depth deps acc).2,
        p ∈ proc ∨ p ∈ pathsOf (enqueueDeps proc depth deps acc).1) := by
  intro deps
  induction deps with
  | nil => intro acc h1 h2; exact ⟨h1, h2⟩
  | cons d ds ih =>
    intro acc h1 h2
    by_cases hg : d ∈ proc ∨ d ∈ pathsOf acc.1
    · have heq : enqueueDeps proc depth (d :: ds) acc = enqueueDeps proc depth ds acc := by
        simp only [enqueueDeps, List.foldl_cons, if_pos hg]
      rw [heq]
      exact ih acc h1 h2
    · have heq : enqueueDeps proc depth (d :: ds) acc =
          enqueueDeps proc depth ds (acc.1 ++ [(d, depth + 1)], acc.2 ++ [d]) := by
        simp only [enqueueDeps, List.foldl_cons, if_neg hg]
      rw [heq]
      have hd : d ∉ acc.2 := by
        intro hc
        rcases h2 d hc with h3 | h3
        · exact hg (Or.inl h3)
        · exact hg (Or.inr h3)
      refine ih _ ?_ ?_
      · exact ((List.perm_append_singleton d acc.2).nodup_iff).2
          (List.nodup_cons.2 ⟨hd, h1⟩)
      · intro p hp
        rcases List.mem_append.1 hp with h3 | h3
        · rcases h2 p h3 with h4 | h4
          · exact Or.inl h4
          · rcases mem_pathsOf.1 h4 with ⟨k, hk⟩
            exact Or.inr (mem_pathsOf.2 ⟨k, List.mem_append_left _ hk⟩)
        · have h4 : p = d := by simpa using h3
          subst h4
          exact Or.inr (mem_pathsOf.2 ⟨depth + 1, List.mem_append_right _ (by simp)⟩)

/-- The skip branch of the loop body: an already processed or ignored
popped path changes nothing. -/
theorem popStep_skip (env : TravEnv) (cur : FsPath) (depth : Nat)
    (st : TravState) (h : cur ∈ st.processed ∨ env.ignores cur = true) :
    popStep env cur depth st = st := by
  unfold popStep
  rw [if_pos h]

/-- The depth-limited branch of the loop body: the path joins the
processed and copy sets and nothing else changes. -/
theorem popStep_stop (env : TravEnv) (cur : FsPath) (depth : Nat)
    (st : TravState) (h1 : ¬(cur ∈ st.processed ∨ env.ignores cur = true))
    (h2 : env.noRecursion = true ∧ 1 ≤ depth) :
    popStep env cur depth st =
      { st with processed := cur :: st.processed, toCopy := cur :: st.toCopy } := by
  unfold popStep
  rw [if_neg h1, if_pos h2]

/-- The failing-parse branch of the loop body: the path joins the
processed and copy sets, the parse attempt is logged, and nothing else
changes. -/
theorem popStep_fail (env : TravEnv) (cur : FsPath) (depth : Nat)
    (st : TravState) (h1 : ¬(cur ∈ st.processed ∨ env.ignores cur = true))
    (h2 : ¬(env.noRecursion = true ∧ 1 ≤ depth)) (h3 : env.parse cur = none) :
    popStep env cur depth st =
      { st with processed := cur :: st.processed, toCopy := cur :: st.toCopy,
                parsedLog := (cur, depth) :: st.parsedLog } := by
  unfold popStep
  rw [if_neg h1, if_neg h2, h3]

/-- The successful-parse branch of the loop body. -/
theorem popStep_parse (env : TravEnv) (cur : FsPath) (depth : Nat)
    (st : TravState) (deps : List FsPath) (exts : List String)
    (h1 : ¬(cur ∈ st.processed ∨ env.ignores cur = true))
    (h2 : ¬(env.noRecursion = true ∧ 1 ≤ depth))
    (h3 : env.parse cur = some (deps, exts)) :
    popStep env cur depth st =
      { frontier := (enqueueDeps (cur :: st.processed) depth deps
          (st.frontier, st.loopEnqueued)).1,
        processed := cur :: st.processed,
        toCopy := cur :: st.toCopy,
        extPy := listUnion st.extPy exts,
        loopEnqueued := (enqueueDeps (cur :: st.processed) depth deps
          (st.frontier, st.loopEnqueued)).2,
        parsedLog := (cur, depth) :: st.parsedLog } := by
  unfold popStep
  rw [if_neg h1, if_neg h2, h3]

/-- Unfolding the loop on an empty frontier. -/
theorem travRun_succ_nil (env : TravEnv) (n : Nat) (st : TravState)
    (h : st.frontier = []) : travRun env (n + 1) st = st := by
  rw [show travRun env (n + 1) st =
    (match st.frontier with
      | [] => st
      | (cur, depth) :: rest =>
        travRun env n (popStep env cur depth { st with frontier := rest }))
    from rfl, h]

/-- Unfolding the loop on a non-empty frontier. -/
theorem travRun_succ_cons (env : TravEnv) (n : Nat) (st : TravState)
    (cur : FsPath) (depth : Nat) (rest : List (FsPath × Nat))
    (h : st.frontier = (cur, depth) :: rest) :
    travRun env (n + 1) st =
      travRun env n (popStep env cur depth { st with frontier := rest }) := by
  rw [show travRun env (n + 1) st =
    (match st.frontier with
      | [] => st
      | (c, d) :: rs =>
        travRun env n (popStep env c d { st with frontier := rs }))
    from rfl, h]

/-- The loop-body state invariant behind claims about visited marking: the
copy set and the processed set are updated in lockstep and hence equal; the
processed set never holds duplicates nor ignored paths; every parse-logged
path is non-ignored; and the discovery-append log holds no duplicates, no
ignored path, and only paths that are processed or still pending. -/
structure TravInv (env : TravEnv) (st : TravState) : Prop where
  copyEq : st.toCopy = st.processed
  procNodup : st.processed.Nodup
  procNotIgn : ∀ p ∈ st.processed, env.ignores p = false
  logNotIgn : ∀ q ∈ st.parsedLog, env.ignores q.1 = false
  leNodup : st.loopEnqueued.Nodup
  leCovered : ∀ p ∈ st.loopEnqueued, p ∈ st.processed ∨ p ∈ pathsOf st.frontier
  leNotIgn : ∀ p ∈ st.loopEnqueued, env.ignores p = false

/-- One loop iteration preserves the state invariant. -/
theorem travInv_popStep (env : TravEnv) (hwf : ParseWF env) (cur : FsPath)
    (depth : Nat) (st : TravState) (rest : List (FsPath × Nat))
    (hfr : st.frontier = (cur, depth) :: rest) (hinv : TravInv env st) :
    TravInv env (popStep env cur depth { st with frontier := rest }) := by
  by_cases h1 : cur ∈ st.processed ∨ env.ignores cur = true
  · have h1' : cur ∈ ({ st with frontier := rest } : TravState).processed ∨
        env.ignores cur = true := h1
    rw [popStep_skip env cur depth _ h1']
    refine ⟨hinv.copyEq, hinv.procNodup, hinv.procNotIgn, hinv.logNotIgn,
      hinv.leNodup, ?_, hinv.leNotIgn⟩
    intro p hp
    rcases hinv.leCovered p hp with h2 | h2
    · exact Or.inl h2
    · rw [hfr] at h2
      rcases mem_pathsOf.1 h2 with ⟨k, hk⟩
      rcases List.mem_cons.1 hk with heq | hk2
      · have hpc : p = cur := congrArg Prod.fst heq
        subst hpc
        rcases h1 with h3 | h3
        · exact Or.inl h3
        · exact absurd h3 (by simp [hinv.leNotIgn p hp])
      · exact Or.inr (mem_pathsOf.2 ⟨k, hk2⟩)
  · have h1' : ¬(cur ∈ ({ st with frontier := rest } : TravState).processed ∨
        env.ignores cur = true) := h1
    have hproc : cur ∉ st.processed := fun hc => h1 (Or.inl hc)
    have hignF : env.ignores cur = false := by
      cases hcur : env.ignores cur
      · rfl
      · exact absurd (Or.inr hcur) h1
    have hCov : ∀ p ∈ st.loopEnqueued,
        p ∈ cur :: st.processed ∨ p ∈ pathsOf rest := by
      intro p hp
      rcases hinv.leCovered p hp with h2 | h2
      · exact Or.inl (List.mem_cons_of_mem cur h2)
      · rw [hfr] at h2
        rcases mem_pathsOf.1 h2 with ⟨k, hk⟩
        rcases List.mem_cons.1 hk with heq | hk2
        · have hpc : p = cur := congrArg Prod.fst heq
          subst hpc
          exact Or.inl (List.mem_cons_self _ _)
        · exact Or.inr (mem_pathsOf.2 ⟨k, hk2⟩)
    have hProcNotIgn : ∀ p ∈ cur :: st.processed, env.ignores p = false := by
      intro p hp
      rcases List.mem_cons.1 hp with rfl | hp2
      · exact hignF
      · exact hinv.procNotIgn p hp2
    have hProcNodup : (cur :: st.processed).Nodup :=
      List.nodup_cons.2 ⟨hproc, hinv.procNodup⟩
    have hCopyEq : cur :: st.toCopy = cur :: st.processed :=
      congrArg (cur :: ·) hinv.copyEq
    by_cases h2 : env.noRecursion = true ∧ 1 ≤ depth
    · rw [popStep_stop env cur depth _ h1' h2]
      exact ⟨hCopyEq, hProcNodup, hProcNotIgn, hinv.logNotIgn, hinv.leNodup,
        hCov, hinv.leNotIgn⟩
    · rcases h3 : env.parse cur with _ | ⟨deps, exts⟩
      · rw [popStep_fail env cur depth _ h1' h2 h3]
        refine ⟨hCopyEq, hProcNodup, hProcNotIgn, ?_, hinv.leNodup, hCov,
          hinv.leNotIgn⟩
        intro q hq
        rcases List.mem_cons.1 hq with rfl | hq2
        · exact hignF
        · exact hinv.logNotIgn q hq2
      · rw [popStep_parse env cur depth _ deps exts h1' h2 h3]
        have henq := enq_le_inv (cur :: st.processed) depth deps
          (rest, st.loopEnqueued) hinv.leNodup hCov
        refine ⟨hCopyEq, hProcNodup, hProcNotIgn, ?_, henq.1, henq.2, ?_⟩
        · intro q hq
          rcases List.mem_cons.1 hq with rfl | hq2
          · exact hignF
          · exact hinv.logNotIgn q hq2
        · intro p hp
          rcases enq_snd_mem (cur :: st.processed) depth deps
            (rest, st.loopEnqueued) p hp with h4 | h4
          · exact hinv.leNotIgn p h4
          · exact hwf cur deps exts h3 p h4

/-- The whole loop preserves the state invariant. -/
theorem travInv_run (env : TravEnv) (hwf : ParseWF env) :
    ∀ (n : Nat) (st : TravState), TravInv env st → TravInv env (travRun env n st) := by
  intro n
  induction n with
  | zero => intro st h; exact h
  | succ n ih =>
    intro st h
    rcases hfr : st.frontier with _ | ⟨⟨cur, depth⟩, rest⟩
    · rw [travRun_succ_nil env n st hfr]
      exact h
    · rw [travRun_succ_cons env n st cur depth rest hfr]
      exact ih _ (travInv_popStep env hwf cur depth st rest hfr h)

/-- The initial state satisfies the invariant. -/
theorem travInv_init (env : TravEnv) (entries : List FsPath) :
    TravInv env (initState entries) := by
  refine ⟨rfl, List.nodup_nil, ?_, ?_, List.nodup_nil, ?_, ?_⟩ <;>
    intro p hp <;> exact absurd hp (List.not_mem_nil p)

/-- The copy set only grows along one loop iteration. -/
theorem popStep_toCopy_mono (env : TravEnv) (cur : FsPath) (depth : Nat)
    (st : TravState) (p : FsPath) (hp : p ∈ st.toCopy) :
    p ∈ (popStep env cur depth st).toCopy := by
  unfold popStep
  split
  · exact hp
  · split
    · exact List.mem_cons_of_mem cur hp
    · split
      · exact List.mem_cons_of_mem cur hp
      · exact List.mem_cons_of_mem cur hp

/-- The copy set only grows along the loop. -/
theorem travRun_toCopy_mono (env : TravEnv) :
    ∀ (n : Nat) (st : TravState) (p : FsPath), p ∈ st.toCopy →
      p ∈ (travRun env n st).toCopy := by
  intro n
  induction n with
  | zero => intro st p h; exact h
  | succ n ih =>
    intro st p h
    rcases hfr : st.frontier with _ | ⟨⟨cur, depth⟩, rest⟩
    · rw [travRun_succ_nil env n st hfr]
      exact h
    · rw [travRun_succ_cons env n st cur depth rest hfr]
      exact ih _ p (popStep_toCopy_mono env cur depth _ p h)

/-- Discovered dependencies are never ignored (consequence of parser
well-formedness). -/
theorem depsOf_not_ignored (env : TravEnv) (hwf : ParseWF env) (e d : FsPath)
    (hd : d ∈ depsOf env e) : env.ignores d = false := by
  unfold depsOf at hd
  split at hd
  case h_1 r h =>
    exact hwf e r.1 r.2 (by rw [h]) d hd
  case h_2 =>
    exact absurd hd (List.not_mem_nil d)

/-- Unfolding the discovered dependencies on a successful parse. -/
theorem depsOf_of_parse (env : TravEnv) (p : FsPath) (deps : List FsPath)
    (exts : List String) (h : env.parse p = some (deps, exts)) :
    depsOf env p = deps := by
  unfold depsOf
  rw [h]

/-- Unfolding the discovered dependencies on a failed read or parse. -/
theorem depsOf_of_fail (env : TravEnv) (p : FsPath)
    (h : env.parse p = none) : depsOf env p = [] := by
  unfold depsOf
  rw [h]

/-- The invariant behind the depth-limiting claim, for a traversal seeded
by the given entries under the direct-dependencies-only flag: frontier
pairs are entries at depth zero or immediate dependencies of a non-ignored
entry at positive depth; processed paths are exactly of those two shapes
and never ignored; every non-ignored entry is processed or still pending
at depth zero; the dependencies of a processed entry are processed or
pending; the copy set equals the processed set; and parsing only ever
happened at depth zero. -/
structure NoRecInv (env : TravEnv) (entries : List FsPath) (st : TravState) :
    Prop where
  frontierOk : ∀ pd ∈ st.frontier,
    (pd.2 = 0 ∧ pd.1 ∈ entries) ∨
    (1 ≤ pd.2 ∧ env.ignores pd.1 = false ∧ pd.1 ∉ entries ∧
      ∃ e, e ∈ entries ∧ env.ignores e = false ∧ pd.1 ∈ depsOf env e)
  procOk : ∀ p ∈ st.processed, env.ignores p = false ∧
    (p ∈ entries ∨ ∃ e, e ∈ entries ∧ env.ignores e = false ∧ p ∈ depsOf env e)
  entriesCovered : ∀ e ∈ entries, env.ignores e = false →
    e ∈ st.processed ∨ (e, 0) ∈ st.frontier
  depsCovered : ∀ e ∈ entries, env.ignores e = false → e ∈ st.processed →
    ∀ d ∈ depsOf env e, d ∈ st.processed ∨ d ∈ pathsOf st.frontier
  copyEq : st.toCopy = st.processed
  logDepth : ∀ q ∈ st.parsedLog, q.2 = 0

/-- One loop iteration preserves the depth-limiting invariant. -/
theorem noRecInv_popStep (env : TravEnv) (entries : List FsPath)
    (hwf : ParseWF env) (hnr : env.noRecursion = true) (cur : FsPath)
    (depth : Nat) (st : TravState) (rest : List (FsPath × Nat))
    (hfr : st.frontier = (cur, depth) :: rest)
    (hinv : NoRecInv env entries st) :
    NoRecInv env entries (popStep env cur depth { st with frontier := rest }) := by
  have hcd := hinv.frontierOk (cur, depth)
    (by rw [hfr]; exact List.mem_cons_self _ _)
  have hRestOk : ∀ pd ∈ rest,
      (pd.2 = 0 ∧ pd.1 ∈ entries) ∨
      (1 ≤ pd.2 ∧ env.ignores pd.1 = false ∧ pd.1 ∉ entries ∧
        ∃ e, e ∈ entries ∧ env.ignores e = false ∧ pd.1 ∈ depsOf env e) := by
    intro pd hpd
    exact hinv.frontierOk pd (by rw [hfr]; exact List.mem_cons_of_mem _ hpd)
  by_cases h1 : cur ∈ st.processed ∨ env.ignores cur = true
  · have h1' : cur ∈ ({ st with frontier := rest } : TravState).processed ∨
        env.ignores cur = true := h1
    rw [popStep_skip env cur depth _ h1']
    refine ⟨hRestOk, hinv.procOk, ?_, ?_, hinv.copyEq, hinv.logDepth⟩
    · intro e he hie
      rcases hinv.entriesCovered e he hie with h2 | h2
      · exact Or.inl h2
      · rw [hfr] at h2
        rcases List.mem_cons.1 h2 with heq | h3
        · have hec : e = cur := congrArg Prod.fst heq
          subst hec
          rcases h1 with h4 | h4
          · exact Or.inl h4
          · exact absurd h4 (by simp [hie])
        · exact Or.inr h3
    · intro e he hie hep d hd
      rcases hinv.depsCovered e he hie hep d hd with h2 | h2
      · exact Or.inl h2
      · rw [hfr] at h2
        rcases mem_pathsOf.1 h2 with ⟨k, hk⟩
        rcases List.mem_cons.1 hk with heq | h3
        · have hdc : d = cur := congrArg Prod.fst heq
          subst hdc
          rcases h1 with h4 | h4
          · exact Or.inl h4
          · exact absurd h4 (by simp [depsOf_not_ignored env hwf e d hd])
        · exact Or.inr (mem_pathsOf.2 ⟨k, h3⟩)
  · have h1' : ¬(cur ∈ ({ st with frontier := rest } : TravState).processed ∨
        env.ignores cur = true) := h1
    have hproc : cur ∉ st.processed := fun hc => h1 (Or.inl hc)
    have hignF : env.ignores cur = false := by
      cases hcur : env.ignores cur
      · rfl
      · exact absurd (Or.inr hcur) h1
    have hCopyEq : cur :: st.toCopy = cur :: st.processed :=
      congrArg (cur :: ·) hinv.copyEq
    by_cases h2 : env.noRecursion = true ∧ 1 ≤ depth
    · have hd1 : 1 ≤ depth := h2.2
      have hcd' : env.ignores cur = false ∧ cur ∉ entries ∧
          ∃ e, e ∈ entries ∧ env.ignores e = false ∧ cur ∈ depsOf env e := by
        rcases hcd with ⟨hz, _⟩ | ⟨_, ha, hb, hc⟩
        · exact absurd hd1 (by omega)
        · exact ⟨ha, hb, hc⟩
      obtain ⟨hciF, hcne, e0, he0, hie0, hde0⟩ := hcd'
      rw [popStep_stop env cur depth _ h1' h2]
      refine ⟨hRestOk, ?_, ?_, ?_, hCopyEq, hinv.logDepth⟩
      · intro p hp
        rcases List.mem_cons.1 hp with rfl | hp2
        · exact ⟨hignF, Or.inr ⟨e0, he0, hie0, hde0⟩⟩
        · exact hinv.procOk p hp2
      · intro e he hie
        rcases hinv.entriesCovered e he hie with h3 | h3
        · exact Or.inl (List.mem_cons_of_mem cur h3)
        · rw [hfr] at h3
          rcases List.mem_cons.1 h3 with heq | h4
          · have : (0 : Nat) = depth := congrArg Prod.snd heq
            omega
          · exact Or.inr h4
      · intro e he hie hep d hd
        rcases List.mem_cons.1 hep with rfl | hep2
        · exact absurd he hcne
        · rcases hinv.depsCovered e he hie hep2 d hd with h3 | h3
          · exact Or.inl (List.mem_cons_of_mem cur h3)
          · rw [hfr] at h3
            rcases mem_pathsOf.1 h3 with ⟨k, hk⟩
            rcases List.mem_cons.1 hk with heq | h4
            · have hdc : d = cur := congrArg Prod.fst heq
              subst hdc
              exact Or.inl (List.mem_cons_self _ _)
            · exact Or.inr (mem_pathsOf.2 ⟨k, h4⟩)
    · have hdep0 : depth = 0 := by
        rcases Nat.eq_zero_or_pos depth with h | h
        · exact h
        · exact absurd ⟨hnr, h⟩ h2
      have hce : cur ∈ entries := by
        rcases hcd with ⟨_, h3⟩ | ⟨h3, _⟩
        · exact h3
        · omega
      rcases h3 : env.parse cur with _ | ⟨deps, exts⟩
      · rw [popStep_fail env cur depth _ h1' h2 h3]
        refine ⟨hRestOk, ?_, ?_, ?_, hCopyEq, ?_⟩
        · intro p hp
          rcases List.mem_cons.1 hp with rfl | hp2
          · exact ⟨hignF, Or.inl hce⟩
          · exact hinv.procOk p hp2
        · intro e he hie
          rcases hinv.entriesCovered e he hie with h4 | h4
          · exact Or.inl (List.mem_cons_of_mem cur h4)
          · rw [hfr] at h4
            rcases List.mem_cons.1 h4 with heq | h5
            · have hec : e = cur := congrArg Prod.fst heq
              subst hec
              exact Or.inl (List.mem_cons_self _ _)
            · exact Or.inr h5
        · intro e he hie hep d hd
          rcases List.mem_cons.1 hep with rfl | hep2
          · rw [depsOf_of_fail env e h3] at hd
            exact absurd hd (List.not_mem_nil d)
          · rcases hinv.depsCovered e he hie hep2 d hd with h4 | h4
            · exact Or.inl (List.mem_cons_of_mem cur h4)
            · rw [hfr] at h4
              rcases mem_pathsOf.1 h4 with ⟨k, hk⟩
              rcases List.mem_cons.1 hk with heq | h5
              · have hdc : d = cur := congrArg Prod.fst heq
                subst hdc
                exact Or.inl (List.mem_cons_self _ _)
              · exact Or.inr (mem_pathsOf.2 ⟨k, h5⟩)
        · intro q hq
          rcases List.mem_cons.1 hq with rfl | hq2
          · exact hdep0
          · exact hinv.logDepth q hq2
      · rw [popStep_parse env cur depth _ deps exts h1' h2 h3]
        have hdeps : depsOf env cur = deps := depsOf_of_parse env cur deps exts h3
        refine ⟨?_, ?_, ?_, ?_, hCopyEq, ?_⟩
        · intro pd hpd
          rcases enq_mem_fst (cur :: st.processed) depth deps
            (rest, st.loopEnqueued) pd hpd with h4 | ⟨h4, h5, h6, h7⟩
          · exact hRestOk pd h4
          · refine Or.inr ⟨by omega, hwf cur deps exts h3 pd.1 h5, ?_,
              cur, hce, hignF, by rw [hdeps]; exact h5⟩
            intro hc
            have hpdiF : env.ignores pd.1 = false := hwf cur deps exts h3 pd.1 h5
            rcases hinv.entriesCovered pd.1 hc hpdiF with h8 | h8
            · exact h6 (List.mem_cons_of_mem cur h8)
            · rw [hfr] at h8
              rcases List.mem_cons.1 h8 with heq | h9
              · have : pd.1 = cur := congrArg Prod.fst heq
                exact h6 (this ▸ List.mem_cons_self _ _)
              · exact h7 (mem_pathsOf.2 ⟨0, h9⟩)
        · intro p hp
          rcases List.mem_cons.1 hp with rfl | hp2
          · exact ⟨hignF, Or.inl hce⟩
          · exact hinv.procOk p hp2
        · intro e he hie
          rcases hinv.entriesCovered e he hie with h4 | h4
          · exact Or.inl (List.mem_cons_of_mem cur h4)
          · rw [hfr] at h4
            rcases List.mem_cons.1 h4 with heq | h5
            · have hec : e = cur := congrArg Prod.fst heq
              subst hec
              exact Or.inl (List.mem_cons_self _ _)
            · exact Or.inr (enq_fst_mono (cur :: st.processed) depth deps
                (rest, st.loopEnqueued) (e, 0) h5)
        · intro e he hie hep d hd
          rcases List.mem_cons.1 hep with hec | hep2
          · rw [hec, hdeps] at hd
            exact enq_deps_cov (cur :: st.processed) depth deps
              (rest, st.loopEnqueued) d hd
          · rcases hinv.depsCovered e he hie hep2 d hd with h4 | h4
            · exact Or.inl (List.mem_cons_of_mem cur h4)
            · rw [hfr] at h4
              rcases mem_pathsOf.1 h4 with ⟨k, hk⟩
              rcases List.mem_cons.1 hk with heq | h5
              · have hdc : d = cur := congrArg Prod.fst heq
                subst hdc
                exact Or.inl (List.mem_cons_self _ _)
              · exact Or.inr (mem_pathsOf.2 ⟨k,
                  enq_fst_mono (cur :: st.processed) depth deps
                    (rest, st.loopEnqueued) (d, k) h5⟩)
        · intro q hq
          rcases List.mem_cons.1 hq with rfl | hq2
          · exact hdep0
          · exact hinv.logDepth q hq2

/-- The whole loop preserves the depth-limiting invariant. -/
theorem noRecInv_run (env : TravEnv) (entries : List FsPath)
    (hwf : ParseWF env) (hnr : env.noRecursion = true) :
    ∀ (n : Nat) (st : TravState), NoRecInv env entries st →
      NoRecInv env entries (travRun env n st) := by
  intro n
  induction n with
  | zero => intro st h; exact h
  | succ n ih =>
    intro st h
    rcases hfr : st.frontier with _ | ⟨⟨cur, depth⟩, rest⟩
    · rw [travRun_succ_nil env n st hfr]
      exact h
    · rw [travRun_succ_cons env n st cur depth rest hfr]
      exact ih _ (noRecInv_popStep env entries hwf hnr cur depth st rest hfr h)

/-- The initial state satisfies the depth-limiting invariant. -/
theorem noRecInv_init (env : TravEnv) (entries : List FsPath) :
    NoRecInv env entries (initState entries) := by
  refine ⟨?_, ?_, ?_, ?_, rfl, ?_⟩
  · intro pd hpd
    rcases List.mem_map.1 hpd with ⟨p, hp, rfl⟩
    exact Or.inl ⟨rfl, hp⟩
  · intro p hp
    exact absurd hp (List.not_mem_nil p)
  · intro e he _
    exact Or.inr (List.mem_map.2 ⟨e, he, rfl⟩)
  · intro e he _ hep
    exact absurd hep (List.not_mem_nil e)
  · intro q hq
    exact absurd hq (List.not_mem_nil q)

/-- Looking up after one first-writer-wins insertion. -/
theorem lookup_insertTypeEntry (m : List (String × FsPath))
    (e : String × FsPath) (n : String) :
    (insertTypeEntry m e).lookup n =
      match m.lookup n with
      | some v => some v
      | none => if n == e.1 then some e.2 else none := by
  unfold insertTypeEntry
  by_cases h : (m.lookup e.1).isSome
  · rw [if_pos h]
    cases hm : m.lookup n with
    | some v => rfl
    | none =>
      cases hne : (n == e.1) with
      | false => rfl
      | true =>
        have heq : n = e.1 := by simpa using hne
        rw [heq] at hm
        rw [hm] at h
        simp at h
  · rw [if_neg h, List.lookup_append]
    cases hm : m.lookup n with
    | some v => rfl
    | none =>
      show ([(e.1, e.2)] : List (String × FsPath)).lookup n = _
      rw [List.lookup_cons]
      cases hne : (n == e.1) <;> rfl

/-- Looking up after merging one worker result list. -/
theorem lookup_foldl_insertType :
    ∀ (l acc : List (String × FsPath)) (n : String),
      (l.foldl insertTypeEntry acc).lookup n =
        match acc.lookup n with
        | some v => some v
        | none => (l.find? (fun e => n == e.1)).map Prod.snd := by
  intro l
  induction l with
  | nil =>
    intro acc n
    cases h : acc.lookup n <;> simp [h]
  | cons e l ih =>
    intro acc n
    rw [List.foldl_cons, ih (insertTypeEntry acc e) n, lookup_insertTypeEntry]
    cases hm : acc.lookup n with
    | some v => rfl
    | none =>
      cases hne : (n == e.1) with
      | true =>
        rw [if_pos rfl, List.find?_cons, hne]
        rfl
      | false =>
        rw [if_neg (by simp), List.find?_cons, hne]

/-- Looking up after merging every worker result list in order. -/
theorem lookup_merge_aux :
    ∀ (results : List (List (String × FsPath)))
      (acc : List (String × FsPath)) (n : String),
      ((results.foldl (fun m fr => fr.foldl insertTypeEntry m) acc).lookup n) =
        match acc.lookup n with
        | some v => some v
        | none => (results.flatten.find? (fun e => n == e.1)).map Prod.snd := by
  intro results
  induction results with
  | nil =>
    intro acc n
    cases h : acc.lookup n <;> simp [h]
  | cons fr rs ih =>
    intro acc n
    rw [List.foldl_cons, ih (fr.foldl insertTypeEntry acc) n,
      lookup_foldl_insertType]
    cases hm : acc.lookup n with
    | some v => rfl
    | none =>
      rw [List.flatten_cons, List.find?_append]
      cases hf : fr.find? (fun e => n == e.1) with
      | some e => simp
      | none => simp

/-- A read failure on any non-ignored project-config file makes the scan
loop abort with the propagated exception. -/
theorem csprojLoop_error (iD iF : List String)
    (readPackages : FsPath → Option (List (String × String))) :
    ∀ (files : List FsPath) (acc : List String) (f : FsPath), f ∈ files →
      isIgnored iD iF f = false → readPackages f = none →
      collectCsprojLoop iD iF readPackages files acc = .error () := by
  intro files
  induction files with
  | nil =>
    intro acc f hf _ _
    exact absurd hf (List.not_mem_nil f)
  | cons g gs ih =>
    intro acc f hf hfi hfr
    unfold collectCsprojLoop
    by_cases hg : isIgnored iD iF g = true
    · rw [if_pos hg]
      rcases List.mem_cons.1 hf with rfl | h2
      · rw [hfi] at hg
        cases hg
      · exact ih acc f h2 hfi hfr
    · rw [if_neg hg]
      cases hr : readPackages g with
      | none => rfl
      | some ps =>
        rcases List.mem_cons.1 hf with rfl | h2
        · rw [hfr] at hr
          cases hr
        · exact ih _ f h2 hfi hfr

/-- With an empty type index the C# parser discovers nothing. -/
theorem parse_csharp_empty_map (iD iF : List String) :
    ∀ cands, parse_csharp_dependencies cands [] iD iF = [] := by
  have haux : ∀ (cands : List String) (acc : List FsPath),
      cands.foldl (fun acc tn =>
        match ([] : List (String × FsPath)).lookup tn with
        | none => acc
        | some fp => if isIgnored iD iF fp then acc else insertNew acc fp)
        acc = acc := by
    intro cands
    induction cands with
    | nil => intro acc; rfl
    | cons c cs ih =>
      intro acc
      rw [List.foldl_cons]
      exact ih acc
  intro cands
  exact haux cands []

/-- Fixture filesystem: one project root r holding a package directory pkg
that contains the marker file and one further module file. -/
def fs0 : FS :=
  { files := [["r", "pkg", "__init__.py"], ["r", "pkg", "a.py"]],
    dirs := [["r"], ["r", "pkg"]] }

/-- C1 (counterexample): for the module name pkg, no module file exists but
the relative path is a directory with a package marker, yet the resolver of
parsers returns only the single marker file, while a further source file
lies recursively beneath the package directory; the returned value is
therefore not the set of all source files beneath it. -/
theorem resolve_python_module_not_whole_package_cex :
    fs0.isFile (["r"] ++ moduleFileComps "pkg") = false
    ∧ fs0.isDir (["r"] ++ dotSegments "pkg") = true
    ∧ fs0.isFile (["r"] ++ dotSegments "pkg" ++ ["__init__.py"]) = true
    ∧ resolve_python_module fs0 "pkg" [["r"]] = some ["r", "pkg", "__init__.py"]
    ∧ ["r", "pkg", "a.py"] ∈ rglobPy fs0 (["r"] ++ dotSegments "pkg")
    ∧ (["r", "pkg", "a.py"] : FsPath) ≠ ["r", "pkg", "__init__.py"] := by
  decide

/-- C1 (amended): when a dotted name does not resolve to a module file but
its relative path is a directory containing a package marker file, the
modular resolver of parsers returns exactly the single marker file, whereas
the legacy resolver of the standalone script returns the set of all .py
files recursively beneath that directory; whole-package inclusion holds for
the legacy resolver only. -/
theorem resolver_package_behavior (fs : FS) (name : String) (base : FsPath)
    (hnf : fs.isFile (base ++ moduleFileComps name) = false)
    (hd : fs.isDir (base ++ dotSegments name) = true)
    (hi : fs.isFile (base ++ dotSegments name ++ ["__init__.py"]) = true) :
    resolve_python_module fs name [base] =
      some (base ++ dotSegments name ++ ["__init__.py"])
    ∧ resolve_python_module_path_legacy fs name base =
      some (rglobPy fs (base ++ dotSegments name))
    ∧ ∀ f, f ∈ rglobPy fs (base ++ dotSegments name) ↔
        (f ∈ fs.files ∧ (base ++ dotSegments name) <+: f ∧
          (base ++ dotSegments name).length < f.length ∧
          fnmatchStr "*.py" (lastComponent f) = true) := by
  have hi' : fs.isFile (base ++ (dotSegments name ++ ["__init__.py"])) = true := by
    rw [← List.append_assoc]
    exact hi
  refine ⟨?_, ?_, ?_⟩
  · simp [resolve_python_module, hnf, hd, hi, hi']
  · simp [resolve_python_module_path_legacy, hnf, hi, hi']
  · intro f
    simp [rglobPy, List.mem_filter, and_assoc]

/-- C1 (witness for the amended theorem): the hypotheses hold on the
fixture filesystem with the package name pkg. -/
theorem resolver_package_behavior_witness :
    (fs0.isFile (["r"] ++ moduleFileComps "pkg") = false
      ∧ fs0.isDir (["r"] ++ dotSegments "pkg") = true
      ∧ fs0.isFile (["r"] ++ dotSegments "pkg" ++ ["__init__.py"]) = true)
    ∧ (resolve_python_module fs0 "pkg" [["r"]] =
        some (["r"] ++ dotSegments "pkg" ++ ["__init__.py"])
      ∧ resolve_python_module_path_legacy fs0 "pkg" ["r"] =
        some (rglobPy fs0 (["r"] ++ dotSegments "pkg"))
      ∧ ∀ f, f ∈ rglobPy fs0 (["r"] ++ dotSegments "pkg") ↔
          (f ∈ fs0.files ∧ (["r"] ++ dotSegments "pkg") <+: f ∧
            (["r"] ++ dotSegments "pkg").length < f.length ∧
            fnmatchStr "*.py" (lastComponent f) = true)) :=
  ⟨⟨by decide, by decide, by decide⟩,
    resolver_package_behavior fs0 "pkg" ["r"] (by decide) (by decide) (by decide)⟩

/-- The fallback standard-library name list written in the source for
older interpreters. -/
def stdlibFallback : List String :=
  ["os", "sys", "re", "collections", "math", "datetime", "json", "typing"]

/-- A filesystem with no files and no directories. -/
def fsEmpty : FS := { files := [], dirs := [] }

/-- C2 (counterexample): a from-import with relative level one and an
explicit module name (from .relmod import x) is treated by the parser of
parsers as if absolute: the unresolved name contributes an external
dependency, so a relative import with nonzero level does contribute. -/
theorem relative_import_counted_cex :
    parse_python_dependencies fsEmpty [["r"]] [] [] stdlibFallback
      (some [PyStmt.impFrom (some "relmod") 1]) = ([], ["relmod"]) := by
  decide

/-- C2 (amended): the parser of parsers collects every alias name of a
plain import and the module of every from-import whose module field is a
non-empty string, regardless of the relative level; only from-imports
without a module name contribute nothing.  The legacy parser of the
standalone script does test the level and drops every relative
from-import. -/
theorem import_collection_behavior (fs : FS) (dirs : List FsPath)
    (iD iF sl : List String) (m : String) (l : Nat) (names : List String)
    (hm : m.isEmpty = false) (hl : l ≠ 0) :
    modulesOfStmt (PyStmt.impFrom none l) = []
    ∧ parse_python_dependencies fs dirs iD iF sl
        (some [PyStmt.impFrom none l]) = ([], [])
    ∧ modulesOfStmt (PyStmt.impFrom (some m) l) = [m]
    ∧ modulesOfStmt (PyStmt.imp names) = names
    ∧ legacyModuleOfStmt (PyStmt.impFrom (some m) l) = none
    ∧ legacyModuleOfStmt (PyStmt.impFrom (some m) 0) = some m := by
  refine ⟨rfl, rfl, ?_, rfl, ?_, ?_⟩
  · simp [modulesOfStmt, hm]
  · cases l with
    | zero => exact absurd rfl hl
    | succ k => rfl
  · simp [legacyModuleOfStmt, hm]

/-- C2 (witness for the amended theorem) at the module name relmod and
level one. -/
theorem import_collection_behavior_witness :
    ("relmod".isEmpty = false ∧ (1 : Nat) ≠ 0)
    ∧ (modulesOfStmt (PyStmt.impFrom none 1) = []
      ∧ parse_python_dependencies fsEmpty [["r"]] [] [] stdlibFallback
          (some [PyStmt.impFrom none 1]) = ([], [])
      ∧ modulesOfStmt (PyStmt.impFrom (some "relmod") 1) = ["relmod"]
      ∧ modulesOfStmt (PyStmt.imp ["os", "numpy"]) = ["os", "numpy"]
      ∧ legacyModuleOfStmt (PyStmt.impFrom (some "relmod") 1) = none
      ∧ legacyModuleOfStmt (PyStmt.impFrom (some "relmod") 0) = some "relmod") :=
  ⟨⟨by decide, by decide⟩,
    import_collection_behavior fsEmpty [["r"]] [] [] stdlibFallback "relmod" 1
      ["os", "numpy"] (by decide) (by decide)⟩

/-- A traversal environment with no ignore rules whose dispatch always
succeeds with no discoveries. -/
def envTrivial : TravEnv :=
  { ignoreDirs := [], ignoreFiles := [], noRecursion := false,
    parse := fun _ => some ([], []) }

/-- C3 (counterexample): with the entry list holding the same path twice,
that path is enqueued onto the frontier twice across the lifetime of the
traversal (both enqueue events come from the initial seeding, which does
not deduplicate), refuting enqueued-at-most-once for duplicate entry
lists. -/
theorem duplicate_entries_enqueued_twice_cex :
    (totalEnqueued [["a.py"], ["a.py"]]
      (travRun envTrivial 3 (initState [["a.py"], ["a.py"]]))).count
        ["a.py"] = 2 := by
  decide

/-- A traversal environment with no ignore rules whose dispatch always
fails (every read raises). -/
def envNoParse : TravEnv :=
  { ignoreDirs := [], ignoreFiles := [], noRecursion := false,
    parse := fun _ => none }

/-- The always-failing dispatch is trivially well-formed. -/
theorem envNoParse_wf : ParseWF envNoParse := fun _ _ _ h => nomatch h

/-- C3 (amended): duplicate entry-list occurrences are each seeded onto the
initial frontier, but dependency discovery appends a given path to the
frontier at most once across the lifetime of the traversal, and every path
enters the processed set at most once, so a path that is both an entry file
and a rediscovered dependency is processed exactly once. -/
theorem enqueue_once_processed_once (env : TravEnv) (entries : List FsPath)
    (n : Nat) (hwf : ParseWF env) :
    (travRun env n (initState entries)).processed.Nodup
    ∧ (travRun env n (initState entries)).loopEnqueued.Nodup := by
  have h := travInv_run env hwf n (initState entries) (travInv_init env entries)
  exact ⟨h.procNodup, h.leNodup⟩

/-- C3 (witness for the amended theorem). -/
theorem enqueue_once_processed_once_witness :
    ParseWF envNoParse
    ∧ ((travRun envNoParse 2 (initState [["main.py"]])).processed.Nodup
      ∧ (travRun envNoParse 2 (initState [["main.py"]])).loopEnqueued.Nodup) :=
  ⟨envNoParse_wf,
    enqueue_once_processed_once envNoParse [["main.py"]] 2 envNoParse_wf⟩

/-- C4: with the direct-dependencies-only flag enabled, once the frontier
has drained, the final copy set holds exactly the non-ignored paths that
are entry files or immediate discovered dependencies of a non-ignored
entry file — no path two or more dependency-edge hops from every entry
appears — and every parse for further dependencies happened at depth
zero, so depth-one files were included without being parsed. -/
theorem no_recursion_copyset (env : TravEnv) (entries : List FsPath) (n : Nat)
    (hwf : ParseWF env) (hnr : env.noRecursion = true)
    (hdone : (travRun env n (initState entries)).frontier = []) :
    (∀ p, p ∈ (travRun env n (initState entries)).toCopy ↔
      (env.ignores p = false ∧ (p ∈ entries ∨
        ∃ e, e ∈ entries ∧ env.ignores e = false ∧ p ∈ depsOf env e)))
    ∧ (∀ q ∈ (travRun env n (initState entries)).parsedLog, q.2 = 0) := by
  have h := noRecInv_run env entries hwf hnr n (initState entries)
    (noRecInv_init env entries)
  constructor
  · intro p
    constructor
    · intro hp
      rw [h.copyEq] at hp
      exact h.procOk p hp
    · rintro ⟨hip, hp | ⟨e, he, hie, hd⟩⟩
      · rcases h.entriesCovered p hp hip with h2 | h2
        · rw [h.copyEq]
          exact h2
        · rw [hdone] at h2
          exact absurd h2 (List.not_mem_nil _)
      · rcases h.entriesCovered e he hie with h2 | h2
        · rcases h.depsCovered e he hie h2 p hd with h3 | h3
          · rw [h.copyEq]
            exact h3
          · rw [hdone] at h3
            simp [pathsOf] at h3
        · rw [hdone] at h2
          exact absurd h2 (List.not_mem_nil _)
  · exact h.logDepth

/-- A traversal environment with the direct-dependencies-only flag set and
an always-failing dispatch. -/
def envNoParseNR : TravEnv :=
  { ignoreDirs := [], ignoreFiles := [], noRecursion := true,
    parse := fun _ => none }

/-- The always-failing depth-limited dispatch is trivially well-formed. -/
theorem envNoParseNR_wf : ParseWF envNoParseNR := fun _ _ _ h => nomatch h

/-- C4 (witness). -/
theorem no_recursion_copyset_witness :
    (ParseWF envNoParseNR ∧ envNoParseNR.noRecursion = true ∧
      (travRun envNoParseNR 2 (initState [["main.py"]])).frontier = [])
    ∧ ((∀ p, p ∈ (travRun envNoParseNR 2 (initState [["main.py"]])).toCopy ↔
        (envNoParseNR.ignores p = false ∧ (p ∈ [["main.py"]] ∨
          ∃ e, e ∈ [["main.py"]] ∧ envNoParseNR.ignores e = false ∧
            p ∈ depsOf envNoParseNR e)))
      ∧ (∀ q ∈ (travRun envNoParseNR 2 (initState [["main.py"]])).parsedLog,
          q.2 = 0)) :=
  ⟨⟨envNoParseNR_wf, rfl, by decide⟩,
    no_recursion_copyset envNoParseNR [["main.py"]] 2 envNoParseNR_wf rfl
      (by decide)⟩

/-- C5 (counterexample): a read failure on a project-config file during the
directory-wide scan for external C# packages is not isolated: the scan
returns the propagated exception, which aborts the overall run, instead of
skipping the file and continuing. -/
theorem csproj_read_failure_aborts_cex :
    collect_external_csharp_dependencies true [] [] [["app.csproj"]]
      (fun _ => none) = Except.error () := by
  rfl

/-- C5 (amended): a failure while reading or parsing a frontier file is
isolated — the file stays in the copy set, contributes no discovered
dependencies, adds nothing to the frontier, and the traversal continues —
but this isolation does not extend to the project-config scan: a read
failure on any non-ignored csproj file aborts that scan with the
propagated exception. -/
theorem parse_failure_isolated (env : TravEnv) (cur : FsPath) (depth : Nat)
    (st : TravState) (rest : List (FsPath × Nat)) (n : Nat)
    (hfr : st.frontier = (cur, depth) :: rest)
    (hproc : cur ∉ st.processed) (hign : env.ignores cur = false)
    (hnr : ¬(env.noRecursion = true ∧ 1 ≤ depth))
    (hfail : env.parse cur = none)
    (iD iF : List String) (csprojFiles : List FsPath) (f : FsPath)
    (readPackages : FsPath → Option (List (String × String)))
    (hf : f ∈ csprojFiles) (hfign : isIgnored iD iF f = false)
    (hread : readPackages f = none) :
    travRun env (n + 1) st =
      travRun env n { st with frontier := rest,
                              processed := cur :: st.processed,
                              toCopy := cur :: st.toCopy,
                              parsedLog := (cur, depth) :: st.parsedLog }
    ∧ cur ∈ (travRun env (n + 1) st).toCopy
    ∧ collect_external_csharp_dependencies true iD iF csprojFiles readPackages
        = Except.error () := by
  have h1 : ¬(cur ∈ ({ st with frontier := rest } : TravState).processed ∨
      env.ignores cur = true) := by
    rintro (hc | hc)
    · exact hproc hc
    · rw [hign] at hc
      cases hc
  have hstep : travRun env (n + 1) st =
      travRun env n (popStep env cur depth { st with frontier := rest }) :=
    travRun_succ_cons env n st cur depth rest hfr
  have hpop := popStep_fail env cur depth ({ st with frontier := rest }) h1 hnr hfail
  refine ⟨?_, ?_, ?_⟩
  · rw [hstep, hpop]
  · rw [hstep, hpop]
    exact travRun_toCopy_mono env n _ cur (List.mem_cons_self _ _)
  · unfold collect_external_csharp_dependencies
    rw [if_neg (by simp)]
    exact csprojLoop_error iD iF readPackages csprojFiles [] f hf hfign hread

/-- C5 (witness for the amended theorem) on a one-entry traversal whose
only read fails, and a one-file csproj scan whose only read fails. -/
theorem parse_failure_isolated_witness :
    ((initState [["a.py"]]).frontier = (["a.py"], 0) :: []
      ∧ ["a.py"] ∉ (initState [["a.py"]]).processed
      ∧ envNoParse.ignores ["a.py"] = false
      ∧ ¬(envNoParse.noRecursion = true ∧ 1 ≤ 0)
      ∧ envNoParse.parse ["a.py"] = none
      ∧ ["app.csproj"] ∈ [(["app.csproj"] : FsPath)]
      ∧ isIgnored [] [] ["app.csproj"] = false
      ∧ (fun (_ : FsPath) => (none : Option (List (String × String))))
          ["app.csproj"] = none)
    ∧ (travRun envNoParse (1 + 1) (initState [["a.py"]]) =
        travRun envNoParse 1
          { (initState [["a.py"]]) with
            frontier := [],
            processed := ["a.py"] :: (initState [["a.py"]]).processed,
            toCopy := ["a.py"] :: (initState [["a.py"]]).toCopy,
            parsedLog := (["a.py"], 0) :: (initState [["a.py"]]).parsedLog }
      ∧ ["a.py"] ∈ (travRun envNoParse (1 + 1) (initState [["a.py"]])).toCopy
      ∧ collect_external_csharp_dependencies true [] [] [["app.csproj"]]
          (fun _ => none) = Except.error ()) :=
  ⟨⟨rfl, by decide, rfl, by decide, rfl, by decide, by decide, rfl⟩,
    parse_failure_isolated envNoParse ["a.py"] 0 (initState [["a.py"]]) [] 1
      rfl (by decide) rfl (by decide) rfl [] [] [["app.csproj"]] ["app.csproj"]
      (fun _ => none) (by decide) (by decide) rfl⟩

/-- C6: at every point of the traversal from the entry files, the copy set
is contained in the processed (visited) set, no processed path matches an
ignore rule, no ignored path was ever parsed for dependencies, and no
ignored path was ever appended to the frontier by discovery. -/
theorem copyset_subset_visited_no_ignored (env : TravEnv)
    (entries : List FsPath) (n : Nat) (hwf : ParseWF env) :
    (∀ p ∈ (travRun env n (initState entries)).toCopy,
        p ∈ (travRun env n (initState entries)).processed)
    ∧ (∀ p ∈ (travRun env n (initState entries)).processed,
        env.ignores p = false)
    ∧ (∀ q ∈ (travRun env n (initState entries)).parsedLog,
        env.ignores q.1 = false)
    ∧ (∀ p ∈ (travRun env n (initState entries)).loopEnqueued,
        env.ignores p = false) := by
  have h := travInv_run env hwf n (initState entries) (travInv_init env entries)
  exact ⟨fun p hp => h.copyEq ▸ hp, h.procNotIgn, h.logNotIgn, h.leNotIgn⟩

/-- C6 (witness). -/
theorem copyset_subset_visited_no_ignored_witness :
    ParseWF envNoParse
    ∧ ((∀ p ∈ (travRun envNoParse 2 (initState [["main.py"]])).toCopy,
          p ∈ (travRun envNoParse 2 (initState [["main.py"]])).processed)
      ∧ (∀ p ∈ (travRun envNoParse 2 (initState [["main.py"]])).processed,
          envNoParse.ignores p = false)
      ∧ (∀ q ∈ (travRun envNoParse 2 (initState [["main.py"]])).parsedLog,
          envNoParse.ignores q.1 = false)
      ∧ (∀ p ∈ (travRun envNoParse 2 (initState [["main.py"]])).loopEnqueued,
          envNoParse.ignores p = false)) :=
  ⟨envNoParse_wf,
    copyset_subset_visited_no_ignored envNoParse [["main.py"]] 2 envNoParse_wf⟩

/-- C7: the merge of the worker result lists into the C# type index is
first-writer-wins — for every sequence of result lists and every type
name, the merged index maps the name to the path paired with the first
occurrence of that name across the concatenated results in merge order;
a later pair with an already-present name never overwrites, and duplicate
names are not an error (the merge is total). -/
theorem type_index_first_writer_wins :
    ∀ (results : List (List (String × FsPath))) (n : String),
      (mergeTypeIndex results).lookup n =
        (results.flatten.find? (fun e => n == e.1)).map Prod.snd := by
  intro results n
  unfold mergeTypeIndex
  rw [lookup_merge_aux results [] n]
  rfl

/-- C8: for both output forms, the requirements manifest exists exactly
when the Python external set is non-empty and then holds the
lexicographically sorted identifiers, likewise the C# packages manifest;
and the manifests are invariant under the discovery order of the
identifiers (any permutation of the set yields identical output). -/
theorem manifests_sorted_gated (py cs py' : List String)
    (hperm : py'.Perm py) :
    (manifestFiles py cs).lookup "requirements.txt" =
      (if py.isEmpty then none
       else some (String.intercalate "\n" (sortedStrings py)))
    ∧ (manifestFiles py cs).lookup "csharp_packages.txt" =
      (if cs.isEmpty then none
       else some (String.intercalate "\n" (sortedStrings cs)))
    ∧ List.Sorted (fun a b : String => a ≤ b) (sortedStrings py)
    ∧ manifestFiles py' cs = manifestFiles py cs := by
  have hb1 : ("requirements.txt" == "csharp_packages.txt") = false := by decide
  have hb2 : ("csharp_packages.txt" == "requirements.txt") = false := by decide
  refine ⟨?_, ?_, ?_, ?_⟩
  · unfold manifestFiles
    by_cases hp : py.isEmpty <;> by_cases hc : cs.isEmpty <;>
      simp [hp, hc, List.lookup_append, List.lookup_cons, hb1]
  · unfold manifestFiles
    by_cases hp : py.isEmpty <;> by_cases hc : cs.isEmpty <;>
      simp [hp, hc, List.lookup_append, List.lookup_cons, hb2]
  · exact List.sorted_insertionSort (fun a b : String => a ≤ b) py
  · have hsorted : sortedStrings py' = sortedStrings py := by
      refine List.eq_of_perm_of_sorted
        (((List.perm_insertionSort _ py').trans hperm).trans
          (List.perm_insertionSort (fun a b : String => a ≤ b) py).symm)
        (List.sorted_insertionSort _ py')
        (List.sorted_insertionSort _ py)
    have hie : py'.isEmpty = py.isEmpty := by
      have hlen := hperm.length_eq
      cases py' <;> cases py <;> simp_all
    unfold manifestFiles
    rw [hie, hsorted]

/-- C8 (witness): the identifiers discovered in the opposite order produce
the same manifests. -/
theorem manifests_sorted_gated_witness :
    (["numpy", "flask"] : List String).Perm ["flask", "numpy"]
    ∧ ((manifestFiles ["flask", "numpy"] []).lookup "requirements.txt" =
        (if (["flask", "numpy"] : List String).isEmpty then none
         else some (String.intercalate "\n" (sortedStrings ["flask", "numpy"])))
      ∧ (manifestFiles ["flask", "numpy"] []).lookup "csharp_packages.txt" =
        (if ([] : List String).isEmpty then none
         else some (String.intercalate "\n" (sortedStrings [])))
      ∧ List.Sorted (fun a b : String => a ≤ b)
          (sortedStrings ["flask", "numpy"])
      ∧ manifestFiles ["numpy", "flask"] [] = manifestFiles ["flask", "numpy"] []) :=
  ⟨by decide,
    manifests_sorted_gated ["flask", "numpy"] [] ["numpy", "flask"] (by decide)⟩

/-- C9: every identifier in the Python external dependency set is the
root segment of a dotted module name that resolved to no file under any
project root and whose root segment is not a standard-library name; and a
single unresolved import of a dotted name records exactly its root
segment, subject to the standard-library test applied to that root
segment only. -/
theorem external_root_segment_only (fs : FS) (dirs : List FsPath)
    (iD iF sl : List String) (tree : Option (List PyStmt)) (m : String)
    (hm : resolve_python_module fs m dirs = none) :
    (∀ x ∈ (parse_python_dependencies fs dirs iD iF sl tree).2,
      ∃ mm, x = rootSegment mm ∧ resolve_python_module fs mm dirs = none ∧
        rootSegment mm ∉ sl)
    ∧ parse_python_dependencies fs dirs iD iF sl (some [PyStmt.imp [m]]) =
        ([], if rootSegment m ∈ sl then [] else [rootSegment m]) := by
  constructor
  · unfold parse_python_dependencies
    match tree with
    | none => intro x hx; exact absurd hx (List.not_mem_nil x)
    | some stmts =>
      have hstep : ∀ (acc : List FsPath × List String) (mm : String),
          (∀ x ∈ acc.2, ∃ mm', x = rootSegment mm' ∧
            resolve_python_module fs mm' dirs = none ∧ rootSegment mm' ∉ sl) →
          ∀ x ∈ (pyDepStep fs dirs iD iF sl acc mm).2, ∃ mm', x = rootSegment mm' ∧
            resolve_python_module fs mm' dirs = none ∧ rootSegment mm' ∉ sl := by
        intro acc mm h x hx
        unfold pyDepStep at hx
        split at hx
        case h_1 q hq =>
          split at hx <;> exact h x hx
        case h_2 hq =>
          split at hx
          · exact h x hx
          · rcases mem_insertNew.1 hx with h1 | rfl
            · exact h x h1
            · exact ⟨mm, rfl, hq, by assumption⟩
      exact foldl_preserve
        (P := fun acc => ∀ x ∈ acc.2, ∃ mm', x = rootSegment mm' ∧
          resolve_python_module fs mm' dirs = none ∧ rootSegment mm' ∉ sl)
        (fun acc st h =>
          foldl_preserve hstep (modulesOfStmt st) acc h)
        stmts ([], []) (fun x hx => absurd hx (List.not_mem_nil x))
  · have hred : parse_python_dependencies fs dirs iD iF sl
        (some [PyStmt.imp [m]]) = pyDepStep fs dirs iD iF sl ([], []) m := rfl
    rw [hred]
    unfold pyDepStep
    rw [hm]
    by_cases hs : rootSegment m ∈ sl
    · rw [if_pos hs, if_pos hs]
    · rw [if_neg hs, if_neg hs]
      simp [insertNew]

/-- C9 (witness) at the unresolved dotted name foo.bar.baz against the
fallback standard-library list. -/
theorem external_root_segment_only_witness :
    resolve_python_module fsEmpty "foo.bar.baz" [["r"]] = none
    ∧ ((∀ x ∈ (parse_python_dependencies fsEmpty [["r"]] [] [] stdlibFallback
          (some [PyStmt.imp ["foo.bar.baz"]])).2,
        ∃ mm, x = rootSegment mm ∧
          resolve_python_module fsEmpty mm [["r"]] = none ∧
          rootSegment mm ∉ stdlibFallback)
      ∧ parse_python_dependencies fsEmpty [["r"]] [] [] stdlibFallback
          (some [PyStmt.imp ["foo.bar.baz"]]) =
        ([], if rootSegment "foo.bar.baz" ∈ stdlibFallback then []
             else [rootSegment "foo.bar.baz"])) :=
  ⟨by decide,
    external_root_segment_only fsEmpty [["r"]] [] [] stdlibFallback
      (some [PyStmt.imp ["foo.bar.baz"]]) "foo.bar.baz" (by decide)⟩

/-- C10: with no entry file carrying the .cs extension, the project is not
recognized as a C# project, the type index is never built and stays empty,
the project-config scan is skipped and the external C# dependency set
stays empty, and the C# parser can discover no type-reference dependency
against an empty index. -/
theorem csharp_gated_on_entries (entries : List FsPath)
    (h : ∀ p ∈ entries, suffixLower p ≠ ".cs")
    (results : List (List (String × FsPath)))
    (iD iF iD' iF' : List String) (csprojFiles : List FsPath)
    (readPackages : FsPath → Option (List (String × String)))
    (cands : List String) :
    isCsharpProject entries = false
    ∧ typeIndexOfRun entries results = []
    ∧ collect_external_csharp_dependencies (isCsharpProject entries) iD iF
        csprojFiles readPackages = Except.ok []
    ∧ parse_csharp_dependencies cands [] iD' iF' = [] := by
  have hcs : isCsharpProject entries = false := by
    unfold isCsharpProject
    rw [List.any_eq_false]
    intro p hp
    simp [h p hp]
  refine ⟨hcs, ?_, ?_, parse_csharp_empty_map iD' iF' cands⟩
  · unfold typeIndexOfRun
    rw [hcs]
    rfl
  · unfold collect_external_csharp_dependencies
    rw [hcs]
    rfl

/-- C10 (witness) on a Python-only entry list. -/
theorem csharp_gated_on_entries_witness :
    (∀ p ∈ [(["main.py"] : FsPath)], suffixLower p ≠ ".cs")
    ∧ (isCsharpProject [["main.py"]] = false
      ∧ typeIndexOfRun [["main.py"]] [[("Helper", ["lib", "Helper.cs"])]] = []
      ∧ collect_external_csharp_dependencies (isCsharpProject [["main.py"]])
          [] [] [["app.csproj"]] (fun _ => some [("Newtonsoft.Json", "13.0.1")])
          = Except.ok []
      ∧ parse_csharp_dependencies ["Helper"] [] [] [] = []) :=
  ⟨by decide,
    csharp_gated_on_entries [["main.py"]] (by decide)
      [[("Helper", ["lib", "Helper.cs"])]] [] [] [] [] [["app.csproj"]]
      (fun _ => some [("Newtonsoft.Json", "13.0.1")]) ["Helper"]⟩
